import Mathlib

/-!
Verification of the `Matcher` regex-like engine from
`exercises/08_finale/exercise/src/main.rs`.

Strings are modelled as `List Char`; byte/char indices of the Rust code
become positions in the character list.  Rust slicing `&s[a..b]` panics
when out of bounds, so the match-time slices are modelled with `Option`
(`none` = panic); inside `Matcher.new` every slice is in bounds (proved
below), so a total slice is used there.
-/

/-- The token type of the matcher: `RawText` is plain literal text,
`OneOfText` is an alternation `(one|two|three)` and `WildCard` is `.`. -/
inductive MatcherToken where
  | RawText (s : List Char)
  | OneOfText (options : List (List Char))
  | WildCard
deriving DecidableEq, Repr

/-- The `Matcher` struct: the original text, the compiled token list and
the `most_tokens_matched` counter. -/
structure Matcher where
  text : List Char
  tokens : List MatcherToken
  most_tokens_matched : Nat
deriving DecidableEq, Repr

/-- The slice `&text[a..b]` of a character list (total version, used in
`Matcher.new` where every slice is in bounds). -/
def strSlice (s : List Char) (a b : Nat) : List Char :=
  (s.drop a).take (b - a)

/-- The mutable local state of the loop inside `Matcher::new`. -/
structure NewState where
  tokens : List MatcherToken
  in_text_block : Bool
  text_start : Nat
  in_or_block : Bool
  or_options : List (List Char)
deriving Repr

/-- The `for (i, c) in text.chars().enumerate()` loop of `Matcher::new`:
`rest` is the remaining input, `i` the position of its first character in
`text`. -/
def newLoop (text : List Char) : List Char → Nat → NewState → Option Matcher
  | [], _, st =>
      if st.in_or_block then none
      else some ⟨text, st.tokens, 0⟩
  | c :: rest, i, st =>
      if c = '.' then
        let st1 := if st.in_text_block then
            { st with tokens := st.tokens ++ [MatcherToken.RawText (strSlice text st.text_start i)],
                      in_text_block := false }
          else st
        newLoop text rest (i + 1) { st1 with tokens := st1.tokens ++ [MatcherToken.WildCard] }
      else if c = '(' then
        if st.in_or_block then none
        else
          let st1 := if st.in_text_block then
              { st with tokens := st.tokens ++ [MatcherToken.RawText (strSlice text st.text_start i)],
                        in_text_block := false }
            else st
          newLoop text rest (i + 1) { st1 with in_or_block := true }
      else if c = ')' then
        if !st.in_or_block then none
        else
          let opts := if st.in_text_block then st.or_options ++ [strSlice text st.text_start i]
            else st.or_options
          newLoop text rest (i + 1)
            { st with tokens := st.tokens ++ [MatcherToken.OneOfText opts],
                      in_or_block := false, in_text_block := false, or_options := [] }
      else if c = '|' then
        if !st.in_or_block then none
        else if !st.in_text_block then none
        else newLoop text rest (i + 1)
          { st with or_options := st.or_options ++ [strSlice text st.text_start i],
                    in_text_block := false }
      else
        if st.in_text_block then newLoop text rest (i + 1) st
        else newLoop text rest (i + 1) { st with in_text_block := true, text_start := i }

/-- `Matcher::new`: parse `text` into a `Matcher`, or `None` when the
pattern is malformed. -/
def Matcher.new (text : List Char) : Option Matcher :=
  newLoop text text 0 ⟨[], false, 0, false, []⟩

/-- The mutable local state of the loop inside `Matcher::match_string`:
the cursor into the candidate, the accumulated match list, and the
running value of `self.most_tokens_matched`. -/
structure MatchState where
  string_pointer : Nat
  matchList : List (MatcherToken × List Char)
  counter : Nat
deriving Repr

/-- The Rust slice `&s[a..]`; `none` models the out-of-bounds panic. -/
def sliceFrom (s : List Char) (a : Nat) : Option (List Char) :=
  if a ≤ s.length then some (s.drop a) else none

/-- The Rust slice `&s[a..b]`; `none` models the out-of-bounds panic. -/
def sliceAt (s : List Char) (a b : Nat) : Option (List Char) :=
  if a ≤ b ∧ b ≤ s.length then some ((s.drop a).take (b - a)) else none

/-- The `for token in &self.tokens` loop of `Matcher::match_string`.
Returns the match list (or `none` when the Rust code panics) together
with the final value of `self.most_tokens_matched`.  The alternation
branch is modelled exactly as written in the source: the `return` sits
inside the `for text in options` loop, so only the first option is ever
examined, and an empty option list falls through to the next token. -/
def matchLoop (s : List Char) : List MatcherToken → MatchState →
    Option (List (MatcherToken × List Char)) × Nat
  | [], st => (some st.matchList, st.counter)
  | tok :: rest, st =>
      match tok with
      | MatcherToken.RawText text =>
          match sliceFrom s st.string_pointer with
          | none => (none, st.counter)
          | some tail =>
              if text.isPrefixOf tail then
                match sliceAt s st.string_pointer (st.string_pointer + text.length) with
                | none => (none, st.counter)
                | some sub =>
                    if s.length < st.string_pointer + text.length then
                      (some (st.matchList ++ [(tok, sub)]), st.counter + 1)
                    else matchLoop s rest
                      ⟨st.string_pointer + text.length,
                       st.matchList ++ [(tok, sub)], st.counter + 1⟩
              else (some st.matchList, st.counter)
      | MatcherToken.OneOfText options =>
          match options with
          | [] =>
              if s.length < st.string_pointer then (some st.matchList, st.counter)
              else matchLoop s rest st
          | text :: _ =>
              match sliceFrom s st.string_pointer with
              | none => (none, st.counter)
              | some tail =>
                  if text.isPrefixOf tail then
                    match sliceAt s st.string_pointer (st.string_pointer + text.length) with
                    | none => (none, st.counter)
                    | some sub =>
                        if s.length < st.string_pointer + text.length then
                          (some (st.matchList ++ [(tok, sub)]), st.counter + 1)
                        else matchLoop s rest
                          ⟨st.string_pointer + text.length,
                           st.matchList ++ [(tok, sub)], st.counter + 1⟩
                  else (some st.matchList, st.counter)
      | MatcherToken.WildCard =>
          match sliceAt s st.string_pointer (st.string_pointer + 1) with
          | none => (none, st.counter)
          | some sub =>
              if s.length < st.string_pointer + 1 then
                (some (st.matchList ++ [(tok, sub)]), st.counter + 1)
              else matchLoop s rest
                ⟨st.string_pointer + 1, st.matchList ++ [(tok, sub)], st.counter + 1⟩

/-- `Matcher::match_string`: resets `most_tokens_matched` to 0, runs the
token loop on the candidate, and returns the match list (`none` = the
Rust code panicked) together with the mutated `Matcher`. -/
def Matcher.match_string (m : Matcher) (s : List Char) :
    Option (List (MatcherToken × List Char)) × Matcher :=
  let r := matchLoop s m.tokens ⟨0, [], 0⟩
  (r.1, { m with most_tokens_matched := r.2 })

/-- Formalisation of the spec sentence "Compile fails iff: an unmatched
`(` remains open at end of input, a `)` appears with no corresponding
open `(`, a `(` appears while another is already open, or a `|` appears
outside an open group or outside an active text run", written from the
spec's words: a left-to-right scan tracking only whether a group is open
(`g`) and whether a text run is active (`r`); it returns `true` exactly
when one of the four failure conditions fires. -/
def specScan : List Char → Bool → Bool → Bool
  | [], g, _ => g
  | c :: rest, g, r =>
      if c = '.' then specScan rest g false
      else if c = '(' then (if g then true else specScan rest true false)
      else if c = ')' then (if g then specScan rest false false else true)
      else if c = '|' then (if g && r then specScan rest g false else true)
      else specScan rest g true

/-- A pattern is malformed per the spec when the scan starting with no
open group and no active run reports a failure. -/
def specMalformed (t : List Char) : Bool := specScan t false false

/-- Non-emptiness of the text carried by a token: a `RawText` holds a
non-empty string, every option of a `OneOfText` is non-empty, and a
`WildCard` carries no text. -/
def tokenNonEmpty : MatcherToken → Prop
  | MatcherToken.RawText s => s ≠ []
  | MatcherToken.OneOfText opts => ∀ o ∈ opts, o ≠ []
  | MatcherToken.WildCard => True

instance : DecidablePred tokenNonEmpty := by
  intro tok
  cases tok <;> simp [tokenNonEmpty] <;> infer_instance

example :
    Matcher.new "abc(d|e|f).".toList =
      some ⟨"abc(d|e|f).".toList,
        [MatcherToken.RawText "abc".toList,
         MatcherToken.OneOfText ["d".toList, "e".toList, "f".toList],
         MatcherToken.WildCard], 0⟩ := by decide

example :
    (Matcher.new "abc(d|e|f).".toList).map
      (fun m => (m.match_string "abcde".toList).1) =
      some (some [(MatcherToken.RawText "abc".toList, "abc".toList),
                  (MatcherToken.OneOfText ["d".toList, "e".toList, "f".toList], "d".toList),
                  (MatcherToken.WildCard, "e".toList)]) := by decide

example : Matcher.new "abc(d|e|f.".toList = none := by decide

/-- The failure behaviour of the `Matcher::new` loop coincides, from any
consistent state, with the spec's two-flag scan: the loop returns `none`
exactly when the scan (seeded with the loop's `in_or_block` and
`in_text_block` flags) reports a failure. -/
theorem newLoop_none_iff (text rest : List Char) :
    ∀ (i : Nat) (st : NewState),
      (newLoop text rest i st = none ↔
        specScan rest st.in_or_block st.in_text_block = true) := by
  induction rest with
  | nil =>
      intro i st
      cases h : st.in_or_block <;> simp [newLoop, specScan, h]
  | cons c rest ih =>
      intro i st
      by_cases hc : c = '.'
      · cases ht : st.in_text_block <;> simp [newLoop, specScan, hc, ht, ih]
      · by_cases hp : c = '('
        · cases ho : st.in_or_block
          · cases ht : st.in_text_block <;>
              simp [newLoop, specScan, hc, hp, ho, ht, ih]
          · simp [newLoop, specScan, hc, hp, ho]
        · by_cases hq : c = ')'
          · cases ho : st.in_or_block
            · simp [newLoop, specScan, hc, hp, hq, ho]
            · cases ht : st.in_text_block <;>
                simp [newLoop, specScan, hc, hp, hq, ho, ht, ih]
          · by_cases hb : c = '|'
            · cases ho : st.in_or_block
              · simp [newLoop, specScan, hc, hp, hq, hb, ho]
              · cases ht : st.in_text_block <;>
                  simp [newLoop, specScan, hc, hp, hq, hb, ho, ht, ih]
            · cases ht : st.in_text_block <;>
                simp [newLoop, specScan, hc, hp, hq, hb, ht, ih]

/-- C2: `Matcher::new` returns `None` if and only if the pattern is
malformed in the spec's sense: an unmatched `(` remains open at end of
input, a `)` appears with no open `(`, a `(` appears while another group
is already open, or a `|` appears outside an open group or outside an
active text run; in every other case it returns a `Matcher`. -/
theorem new_none_iff_specMalformed (t : List Char) :
    Matcher.new t = none ↔ specMalformed t = true := by
  simpa [specMalformed] using newLoop_none_iff t t 0 ⟨[], false, 0, false, []⟩

/-- C9: `match` is deterministic.  A second call of `match_string` on the
matcher returned (mutated) by a first call, with the same candidate,
yields the identical match list and the identical final matcher; and the
match list is independent of the incoming `most_tokens_matched` value,
since the method resets it to 0 before matching. -/
theorem match_string_deterministic (m : Matcher) (s : List Char) (k : Nat) :
    ((m.match_string s).2).match_string s = m.match_string s ∧
    (({ m with most_tokens_matched := k } : Matcher).match_string s).1 =
      (m.match_string s).1 := ⟨rfl, rfl⟩

/-- Processing a `WildCard` token with the cursor strictly inside the
candidate consumes exactly the one character under the cursor: the pair
`(WildCard, [that character])` is appended, the counter is incremented
and the cursor advances by one, after which the loop continues with the
remaining tokens. -/
theorem matchLoop_wildcard_step (s : List Char) (rest : List MatcherToken)
    (st : MatchState) (h : st.string_pointer < s.length) :
    matchLoop s (MatcherToken.WildCard :: rest) st =
      matchLoop s rest
        ⟨st.string_pointer + 1,
         st.matchList ++ [(MatcherToken.WildCard, [s.get ⟨st.string_pointer, h⟩])],
         st.counter + 1⟩ := by
  have hsa : sliceAt s st.string_pointer (st.string_pointer + 1) =
      some [s.get ⟨st.string_pointer, h⟩] := by
    rw [sliceAt, if_pos (show st.string_pointer ≤ st.string_pointer + 1 ∧
      st.string_pointer + 1 ≤ s.length by omega)]
    rw [List.drop_eq_getElem_cons h]
    have : st.string_pointer + 1 - st.string_pointer = 1 := by omega
    rw [this]
    rfl
  simp only [matchLoop, hsa]
  rw [if_neg (by omega)]

/-- C8: witness of `matchLoop_wildcard_step` at a concrete input. -/
theorem matchLoop_wildcard_step_witness :
    matchLoop "ab".toList [MatcherToken.WildCard] ⟨0, [], 0⟩ =
      matchLoop "ab".toList []
        ⟨1, [(MatcherToken.WildCard, ['a'])], 1⟩ := by
  simpa using matchLoop_wildcard_step "ab".toList [] ⟨0, [], 0⟩ (by decide)

/-- C10: the pattern `()` compiles successfully to a single `OneOfText`
token with an empty option list, and the match loop, on reaching an
`OneOfText` token with zero options while the cursor is within bounds,
records no pair, increments nothing, does not stop, and continues with
the remaining tokens in an unchanged state. -/
theorem empty_alternation_group :
    Matcher.new "()".toList =
      some ⟨"()".toList, [MatcherToken.OneOfText []], 0⟩ ∧
    ∀ (s : List Char) (rest : List MatcherToken) (st : MatchState),
      st.string_pointer ≤ s.length →
      matchLoop s (MatcherToken.OneOfText [] :: rest) st =
        matchLoop s rest st := by
  constructor
  · decide
  · intro s rest st h
    simp only [matchLoop]
    rw [if_neg (by omega)]

/-- C10: witness of `empty_alternation_group` at a concrete input. -/
theorem empty_alternation_group_witness :
    matchLoop "x".toList [MatcherToken.OneOfText [], MatcherToken.WildCard]
        ⟨0, [], 0⟩ =
      matchLoop "x".toList [MatcherToken.WildCard] ⟨0, [], 0⟩ :=
  empty_alternation_group.2 "x".toList [MatcherToken.WildCard] ⟨0, [], 0⟩
    (by decide)

/-- Each pair pushed onto the match list comes with one increment of the
counter: when the loop returns normally and the counter entered equal to
the match-list length, it leaves equal to the returned list's length. -/
theorem matchLoop_counter_eq_length (s : List Char) :
    ∀ (tokens : List MatcherToken) (st : MatchState)
      (r : List (MatcherToken × List Char)) (c : Nat),
      matchLoop s tokens st = (some r, c) → st.counter = st.matchList.length →
      c = r.length := by
  intro tokens
  induction tokens with
  | nil =>
      intro st r c h hc
      simp only [matchLoop, Prod.mk.injEq, Option.some.injEq] at h
      obtain ⟨h1, h2⟩ := h
      subst h1; subst h2
      exact hc
  | cons tok rest ih =>
      intro st r c h hc
      cases tok with
      | RawText text =>
          simp only [matchLoop] at h
          split at h
          · simp at h
          · split at h
            · split at h
              · simp at h
              · split at h
                · simp only [Prod.mk.injEq, Option.some.injEq] at h
                  obtain ⟨h1, h2⟩ := h
                  subst h1; subst h2
                  simp [hc]
                · exact ih _ r c h (by simp [hc])
            · simp only [Prod.mk.injEq, Option.some.injEq] at h
              obtain ⟨h1, h2⟩ := h
              subst h1; subst h2
              exact hc
      | OneOfText options =>
          cases options with
          | nil =>
              simp only [matchLoop] at h
              split at h
              · simp only [Prod.mk.injEq, Option.some.injEq] at h
                obtain ⟨h1, h2⟩ := h
                subst h1; subst h2
                exact hc
              · exact ih _ r c h hc
          | cons text opts =>
              simp only [matchLoop] at h
              split at h
              · simp at h
              · split at h
                · split at h
                  · simp at h
                  · split at h
                    · simp only [Prod.mk.injEq, Option.some.injEq] at h
                      obtain ⟨h1, h2⟩ := h
                      subst h1; subst h2
                      simp [hc]
                    · exact ih _ r c h (by simp [hc])
                · simp only [Prod.mk.injEq, Option.some.injEq] at h
                  obtain ⟨h1, h2⟩ := h
                  subst h1; subst h2
                  exact hc
      | WildCard =>
          simp only [matchLoop] at h
          split at h
          · simp at h
          · split at h
            · simp only [Prod.mk.injEq, Option.some.injEq] at h
              obtain ⟨h1, h2⟩ := h
              subst h1; subst h2
              simp [hc]
            · exact ih _ r c h (by simp [hc])

/-- C4: `match_string` resets `most_tokens_matched` to 0 before matching
(the initial value of the counter is irrelevant), and when the call
returns normally the final `most_tokens_matched` equals the length of
the returned match list. -/
theorem match_string_counter_eq_length (m : Matcher) (s : List Char)
    (r : List (MatcherToken × List Char)) (m' : Matcher)
    (h : m.match_string s = (some r, m')) :
    m'.most_tokens_matched = r.length := by
  rcases hp : matchLoop s m.tokens ⟨0, [], 0⟩ with ⟨a, b⟩
  have hm : m.match_string s = (a, { m with most_tokens_matched := b }) := by
    simp [Matcher.match_string, hp]
  rw [hm] at h
  injection h with h1 h2
  subst h1
  rw [← h2]
  exact matchLoop_counter_eq_length s m.tokens ⟨0, [], 0⟩ r b hp rfl

/-- C4: witness of `match_string_counter_eq_length` at a concrete
input (initial counter 7, one wildcard token, candidate `x`). -/
theorem match_string_counter_eq_length_witness :
    (Matcher.mk ['.'] [MatcherToken.WildCard] 1).most_tokens_matched =
      [(MatcherToken.WildCard, ['x'])].length :=
  match_string_counter_eq_length (Matcher.mk ['.'] [MatcherToken.WildCard] 7)
    ['x'] [(MatcherToken.WildCard, ['x'])]
    (Matcher.mk ['.'] [MatcherToken.WildCard] 1) (by decide)

/-- The tokens of the pairs accumulated by the match loop form, in
order, a sublist of the tokens already recorded followed by the tokens
still to be processed. -/
theorem matchLoop_sublist (s : List Char) :
    ∀ (tokens : List MatcherToken) (st : MatchState)
      (r : List (MatcherToken × List Char)) (c : Nat),
      matchLoop s tokens st = (some r, c) →
      List.Sublist (r.map Prod.fst) (st.matchList.map Prod.fst ++ tokens) := by
  intro tokens
  induction tokens with
  | nil =>
      intro st r c h
      simp only [matchLoop, Prod.mk.injEq, Option.some.injEq] at h
      obtain ⟨h1, h2⟩ := h
      subst h1
      simp
  | cons tok rest ih =>
      intro st r c h
      rw [List.append_cons]
      cases tok with
      | RawText text =>
          simp only [matchLoop] at h
          split at h
          · simp at h
          · split at h
            · split at h
              · simp at h
              · split at h
                · simp only [Prod.mk.injEq, Option.some.injEq] at h
                  obtain ⟨h1, h2⟩ := h
                  subst h1
                  simp only [List.map_append, List.map_cons, List.map_nil]
                  exact List.sublist_append_left _ _
                · have hr := ih _ r c h
                  simpa [List.map_append] using hr
            · simp only [Prod.mk.injEq, Option.some.injEq] at h
              obtain ⟨h1, h2⟩ := h
              subst h1
              exact (List.sublist_append_left _ _).trans
                (List.sublist_append_left _ _)
      | OneOfText options =>
          cases options with
          | nil =>
              simp only [matchLoop] at h
              split at h
              · simp only [Prod.mk.injEq, Option.some.injEq] at h
                obtain ⟨h1, h2⟩ := h
                subst h1
                exact (List.sublist_append_left _ _).trans
                  (List.sublist_append_left _ _)
              · have hr := ih _ r c h
                rw [List.append_assoc]
                exact hr.trans
                  ((List.sublist_append_right _ _).append_left _)
          | cons text opts =>
              simp only [matchLoop] at h
              split at h
              · simp at h
              · split at h
                · split at h
                  · simp at h
                  · split at h
                    · simp only [Prod.mk.injEq, Option.some.injEq] at h
                      obtain ⟨h1, h2⟩ := h
                      subst h1
                      simp only [List.map_append, List.map_cons, List.map_nil]
                      exact List.sublist_append_left _ _
                    · have hr := ih _ r c h
                      simpa [List.map_append] using hr
                · simp only [Prod.mk.injEq, Option.some.injEq] at h
                  obtain ⟨h1, h2⟩ := h
                  subst h1
                  exact (List.sublist_append_left _ _).trans
                    (List.sublist_append_left _ _)
      | WildCard =>
          simp only [matchLoop] at h
          split at h
          · simp at h
          · split at h
            · simp only [Prod.mk.injEq, Option.some.injEq] at h
              obtain ⟨h1, h2⟩ := h
              subst h1
              simp only [List.map_append, List.map_cons, List.map_nil]
              exact List.sublist_append_left _ _
            · have hr := ih _ r c h
              simpa [List.map_append] using hr

/-- C5 (amended): the match list returned by `match_string` references
tokens of the compiled sequence in declared order — its token
projections form a sublist (order-preserving subsequence) of the token
sequence — and its length is at most the number of tokens.  It need not
be a prefix: an `OneOfText` token with an empty option list is skipped
without being recorded. -/
theorem match_string_tokens_sublist (m : Matcher) (s : List Char)
    (r : List (MatcherToken × List Char)) (m' : Matcher)
    (h : m.match_string s = (some r, m')) :
    List.Sublist (r.map Prod.fst) m.tokens ∧ r.length ≤ m.tokens.length := by
  rcases hp : matchLoop s m.tokens ⟨0, [], 0⟩ with ⟨a, b⟩
  have hm : m.match_string s = (a, { m with most_tokens_matched := b }) := by
    simp [Matcher.match_string, hp]
  rw [hm] at h
  injection h with h1 h2
  subst h1
  have hs := matchLoop_sublist s m.tokens ⟨0, [], 0⟩ r b hp
  simp only [List.map_nil, List.nil_append] at hs
  exact ⟨hs, by simpa using hs.length_le⟩

/-- C5: witness of `match_string_tokens_sublist` at a concrete input. -/
theorem match_string_tokens_sublist_witness :
    List.Sublist ([(MatcherToken.WildCard, ['a'])].map Prod.fst)
      (Matcher.mk "().".toList [MatcherToken.OneOfText [], MatcherToken.WildCard]
        0).tokens ∧
    [(MatcherToken.WildCard, ['a'])].length ≤
      (Matcher.mk "().".toList [MatcherToken.OneOfText [], MatcherToken.WildCard]
        0).tokens.length :=
  match_string_tokens_sublist
    (Matcher.mk "().".toList [MatcherToken.OneOfText [], MatcherToken.WildCard] 0)
    "a".toList [(MatcherToken.WildCard, ['a'])]
    (Matcher.mk "().".toList [MatcherToken.OneOfText [], MatcherToken.WildCard] 1)
    (by decide)

/-- C5 counterexample: for pattern `().` and candidate `a` the compiled
token sequence is `[OneOfText [], WildCard]` but the returned match list
is `[(WildCard, "a")]`: its token projection `[WildCard]` is not a
prefix of the token sequence, because its first pair references the
second token, not the first. -/
theorem match_list_not_prefix_counterexample :
    (Matcher.new "().".toList).map Matcher.tokens =
      some [MatcherToken.OneOfText [], MatcherToken.WildCard] ∧
    (Matcher.new "().".toList).map (fun m => (m.match_string "a".toList).1) =
      some (some [(MatcherToken.WildCard, ['a'])]) ∧
    List.isPrefixOf ([(MatcherToken.WildCard, ['a'])].map Prod.fst)
      [MatcherToken.OneOfText [], MatcherToken.WildCard] = false :=
  ⟨by decide, by decide, by decide⟩

/-- C1 (refuted by the code): pattern `(a|b)` compiles to the single
alternation token with options `a` and `b`; the second option `b` is a
prefix of the candidate `b`, yet `match_string` returns the empty match
list — the loop returns as soon as the first option fails to match,
without scanning the remaining options, contradicting both the claim
and the doc comment of `OneOfText` ("could be any one of multiple
strings ... the allowed strings"). -/
theorem alternation_tries_first_option_only :
    (Matcher.new "(a|b)".toList).map Matcher.tokens =
      some [MatcherToken.OneOfText [['a'], ['b']]] ∧
    (Matcher.new "(a|b)".toList).map (fun m => (m.match_string "b".toList).1) =
      some (some []) ∧
    List.isPrefixOf ['b'] "b".toList = true :=
  ⟨by decide, by decide, by decide⟩

/-- C3 (refuted by the code): pattern `.` compiles to a single
`WildCard` token, and matching it against the empty candidate evaluates
the slice `&string[0..1]` with the cursor already at the end of the
string — the call panics with an out-of-bounds slice (modelled as
`none`) instead of returning an empty match list. -/
theorem wildcard_at_end_of_candidate_panics :
    (Matcher.new ".".toList).map Matcher.tokens = some [MatcherToken.WildCard] ∧
    (Matcher.new ".".toList).map (fun m => (m.match_string "".toList).1) =
      some none :=
  ⟨by decide, by decide⟩

/-- A slice `&text[a..b]` with `a < b` and `a` inside the text is
non-empty. -/
theorem strSlice_ne_nil {s : List Char} {a b : Nat} (hab : a < b)
    (ha : a < s.length) : strSlice s a b ≠ [] := by
  simp only [strSlice, ne_eq, List.take_eq_nil_iff, List.drop_eq_nil_iff]
  omega

/-- Invariant of the `Matcher::new` loop: if every token and every
pending option accumulated so far is non-empty and an open text run
started strictly before the current position, then every token of the
resulting matcher is non-empty. -/
theorem newLoop_tokens_nonEmpty (text : List Char) :
    ∀ (rest : List Char) (i : Nat) (st : NewState) (m : Matcher),
      i + rest.length ≤ text.length →
      (st.in_text_block = true → st.text_start < i) →
      (∀ tok ∈ st.tokens, tokenNonEmpty tok) →
      (∀ o ∈ st.or_options, o ≠ []) →
      newLoop text rest i st = some m →
      ∀ tok ∈ m.tokens, tokenNonEmpty tok := by
  intro rest
  induction rest with
  | nil =>
      intro i st m hlen hts htok hopt h
      simp only [newLoop] at h
      split at h
      · simp at h
      · simp only [Option.some.injEq] at h
        subst h
        exact htok
  | cons c rest ih =>
      intro i st m hlen hts htok hopt h
      simp only [List.length_cons] at hlen
      have hi : i < text.length := by omega
      have hlen' : i + 1 + rest.length ≤ text.length := by omega
      simp only [newLoop] at h
      by_cases hc : c = '.'
      · rw [if_pos hc] at h
        cases ht : st.in_text_block with
        | true =>
            simp only [ht, if_true] at h
            refine ih (i + 1) _ m hlen' ?_ ?_ ?_ h
            · simp
            · simp only [List.forall_mem_append, List.forall_mem_singleton]
              exact ⟨⟨htok, strSlice_ne_nil (hts ht) (by have := hts ht; omega)⟩, trivial⟩
            · exact hopt
        | false =>
            simp only [ht, if_false] at h
            refine ih (i + 1) _ m hlen' ?_ ?_ ?_ h
            · simp [ht]
            · simp only [List.forall_mem_append, List.forall_mem_singleton]
              exact ⟨htok, trivial⟩
            · exact hopt
      · rw [if_neg hc] at h
        by_cases hp : c = '('
        · rw [if_pos hp] at h
          cases ho : st.in_or_block with
          | true => simp [ho] at h
          | false =>
              simp only [ho, if_false] at h
              cases ht : st.in_text_block with
              | true =>
                  simp only [ht, if_true] at h
                  refine ih (i + 1) _ m hlen' ?_ ?_ ?_ h
                  · simp
                  · simp only [List.forall_mem_append, List.forall_mem_singleton]
                    exact ⟨htok, strSlice_ne_nil (hts ht) (by have := hts ht; omega)⟩
                  · exact hopt
              | false =>
                  simp only [ht, if_false] at h
                  refine ih (i + 1) _ m hlen' ?_ ?_ ?_ h
                  · simp [ht]
                  · exact htok
                  · exact hopt
        · rw [if_neg hp] at h
          by_cases hq : c = ')'
          · rw [if_pos hq] at h
            cases ho : st.in_or_block with
            | false => simp [ho] at h
            | true =>
                simp only [ho, Bool.not_true, if_false] at h
                cases ht : st.in_text_block with
                | true =>
                    simp only [ht, if_true] at h
                    refine ih (i + 1) _ m hlen' ?_ ?_ ?_ h
                    · simp
                    · simp only [List.forall_mem_append, List.forall_mem_singleton]
                      refine ⟨htok, ?_⟩
                      simp only [tokenNonEmpty, List.forall_mem_append,
                        List.forall_mem_singleton]
                      exact ⟨hopt, strSlice_ne_nil (hts ht) (by have := hts ht; omega)⟩
                    · simp
                | false =>
                    simp only [ht, if_false] at h
                    refine ih (i + 1) _ m hlen' ?_ ?_ ?_ h
                    · simp
                    · simp only [List.forall_mem_append, List.forall_mem_singleton]
                      exact ⟨htok, hopt⟩
                    · simp
          · rw [if_neg hq] at h
            by_cases hb : c = '|'
            · rw [if_pos hb] at h
              cases ho : st.in_or_block with
              | false => simp [ho] at h
              | true =>
                  simp only [ho, Bool.not_true, if_false] at h
                  cases ht : st.in_text_block with
                  | false => simp [ht] at h
                  | true =>
                      simp only [ht, Bool.not_true, if_false] at h
                      refine ih (i + 1) _ m hlen' ?_ ?_ ?_ h
                      · simp
                      · exact htok
                      · simp only [List.forall_mem_append, List.forall_mem_singleton]
                        exact ⟨hopt, strSlice_ne_nil (hts ht) (by have := hts ht; omega)⟩
            · rw [if_neg hb] at h
              cases ht : st.in_text_block with
              | true =>
                  simp only [ht, if_true] at h
                  refine ih (i + 1) _ m hlen' ?_ ?_ ?_ h
                  · intro h1
                    have := hts h1
                    omega
                  · exact htok
                  · exact hopt
              | false =>
                  simp only [ht, if_false] at h
                  refine ih (i + 1) _ m hlen' ?_ ?_ ?_ h
                  · simp
                  · exact htok
                  · exact hopt

/-- C6: for every pattern accepted by `Matcher::new`, each `RawText`
token's text is non-empty and every string in an `OneOfText` token's
option list is non-empty: zero-length runs are never emitted. -/
theorem new_tokens_nonEmpty (t : List Char) (m : Matcher)
    (h : Matcher.new t = some m) : ∀ tok ∈ m.tokens, tokenNonEmpty tok :=
  newLoop_tokens_nonEmpty t t 0 ⟨[], false, 0, false, []⟩ m (by simp)
    (by simp) (by simp) (by simp) h

/-- C6: witness of `new_tokens_nonEmpty` at a concrete input: the first
token compiled from `a(b|c).` is the non-empty literal `a`. -/
theorem new_tokens_nonEmpty_witness :
    tokenNonEmpty (MatcherToken.RawText ['a']) :=
  new_tokens_nonEmpty "a(b|c).".toList
    (Matcher.mk "a(b|c).".toList
      [MatcherToken.RawText ['a'], MatcherToken.OneOfText [['b'], ['c']],
       MatcherToken.WildCard] 0)
    (by decide) (MatcherToken.RawText ['a']) (by decide)

/-- A slice `&text[a..b]` that ends within the original text is
unchanged when more characters are appended to the text. -/
theorem strSlice_append {s u : List Char} {a b : Nat} (hb : b ≤ s.length) :
    strSlice (s ++ u) a b = strSlice s a b := by
  unfold strSlice
  rw [List.drop_append_eq_append_drop, List.take_append_eq_append_take]
  have h1 : b - a - (List.drop a s).length = 0 := by
    rw [List.length_drop]; omega
  rw [h1, List.take_zero, List.append_nil]

/-- Running the `Matcher::new` loop over the input extended by one
non-delimiter character gives the same outcome as over the original
input, up to the stored text: the appended character only opens (or
extends) a trailing text run, which the end of the loop drops. -/
theorem newLoop_append_other (t : List Char) (c : Char)
    (hc : c ≠ '.') (hp : c ≠ '(') (hq : c ≠ ')') (hb : c ≠ '|') :
    ∀ (rest : List Char) (i : Nat) (st : NewState),
      i + rest.length = t.length →
      newLoop (t ++ [c]) (rest ++ [c]) i st =
        Option.map (fun m => ⟨t ++ [c], m.tokens, m.most_tokens_matched⟩)
          (newLoop t rest i st) := by
  intro rest
  induction rest with
  | nil =>
      intro i st hlen
      cases ht : st.in_text_block <;> cases ho : st.in_or_block <;>
        simp [newLoop, hc, hp, hq, hb, ht, ho]
  | cons c2 rest ih =>
      intro i st hlen
      simp only [List.length_cons] at hlen
      have hi : i ≤ t.length := by omega
      have hlen' : i + 1 + rest.length = t.length := by omega
      have ih' := fun st' => ih (i + 1) st' hlen'
      simp only [List.cons_append]
      by_cases hc2 : c2 = '.'
      · cases ht : st.in_text_block <;>
          simp [newLoop, hc2, ht, strSlice_append hi, ih']
      · by_cases hp2 : c2 = '('
        · cases ho : st.in_or_block
          · cases ht : st.in_text_block <;>
              simp [newLoop, hc2, hp2, ho, ht, strSlice_append hi, ih']
          · simp [newLoop, hc2, hp2, ho]
        · by_cases hq2 : c2 = ')'
          · cases ho : st.in_or_block
            · simp [newLoop, hc2, hp2, hq2, ho]
            · cases ht : st.in_text_block <;>
                simp [newLoop, hc2, hp2, hq2, ho, ht, strSlice_append hi, ih']
          · by_cases hb2 : c2 = '|'
            · cases ho : st.in_or_block
              · simp [newLoop, hc2, hp2, hq2, hb2, ho]
              · cases ht : st.in_text_block <;>
                  simp [newLoop, hc2, hp2, hq2, hb2, ho, ht, strSlice_append hi, ih']
            · cases ht : st.in_text_block <;>
                simp [newLoop, hc2, hp2, hq2, hb2, ht, ih']

/-- C7: a pattern ending while a bare text run is open (and no group is
open) compiles, and the trailing run is silently dropped.  Concretely:
extending any pattern accepted by `Matcher::new` with one non-delimiter
character — which opens or extends a trailing bare text run — still
compiles, and to exactly the same token sequence: no final `RawText`
token is emitted for the trailing run. -/
theorem trailing_text_run_dropped (t : List Char) (c : Char)
    (hc : c ≠ '.') (hp : c ≠ '(') (hq : c ≠ ')') (hb : c ≠ '|')
    (m : Matcher) (h : Matcher.new t = some m) :
    ∃ m', Matcher.new (t ++ [c]) = some m' ∧ m'.tokens = m.tokens := by
  have key := newLoop_append_other t c hc hp hq hb t 0
    ⟨[], false, 0, false, []⟩ (by simp)
  refine ⟨⟨t ++ [c], m.tokens, m.most_tokens_matched⟩, ?_, rfl⟩
  rw [Matcher.new] at h ⊢
  rw [key, h]
  rfl

/-- C7: witness of `trailing_text_run_dropped` at a concrete input:
`a.b` compiles to the same tokens as `a.` — the trailing `b` is
dropped. -/
theorem trailing_text_run_dropped_witness :
    ∃ m', Matcher.new ("a.".toList ++ ['b']) = some m' ∧
      m'.tokens = (Matcher.mk "a.".toList
        [MatcherToken.RawText ['a'], MatcherToken.WildCard] 0).tokens :=
  trailing_text_run_dropped "a.".toList 'b' (by decide) (by decide)
    (by decide) (by decide)
    (Matcher.mk "a.".toList [MatcherToken.RawText ['a'], MatcherToken.WildCard] 0)
    (by decide)
